import Mathlib

/-!
Verification of the rate-adaptive execution scheduler of the demo volume bot:
the quote cache (`src/utils/quoteCache.ts`), the request queue
(`RequestQueue` in the source), and the cooldown coordinator
(`recordRateLimitFailure` / `triggerCooldown` / `checkAndExitCooldown` in
`src/usage-tracker.mjs`), shallowly embedded as executable Lean functions and
a small-step transition system, with the spec's invariants proved or refuted.
-/

namespace VolumeBot

/-! ## Quote cache (src/utils/quoteCache.ts)

The TypeScript `QuoteCache` holds a `Map<string, CachedQuote>` plus hit/miss
counters.  `Date.now()` is passed explicitly as `now : Int` (milliseconds).
The quote payload is an opaque type parameter `α`.  The `Map` is embedded as
an association list with the usual JavaScript `Map` semantics: `set` replaces
in place or appends, `get` finds the unique entry, `delete` removes it. -/

/-- Embedding of the `CachedQuote` interface: the stored payload, the
`Date.now()` timestamp recorded by `set`, and the raw request fields. -/
structure CachedQuote (α : Type) where
  quote : α
  timestamp : Int
  inputMint : String
  outputMint : String
  amount : Nat
  deriving DecidableEq, Repr

/-- Embedding of the `QuoteCache` class state: the backing map and the
cumulative hit/miss counters. -/
structure QuoteCacheState (α : Type) where
  cache : List (String × CachedQuote α)
  hits : Nat
  misses : Nat
  deriving DecidableEq, Repr

/-- `private readonly TTL = 20000` (milliseconds). -/
def cacheTTL : Int := 20000

/-- `getCacheKey`: the amount is floored to a multiple of 1,000,000 raw units
(`Math.floor(amount / 1000000) * 1000000`) and interpolated into the
template string `inputMint-outputMint-roundedAmount`. -/
def getCacheKey (inputMint outputMint : String) (amount : Nat) : String :=
  let roundedAmount := amount / 1000000 * 1000000
  inputMint ++ "-" ++ outputMint ++ "-" ++ toString roundedAmount

/-- `Map.get`: first (unique) entry with the given key. -/
def mapFind {α : Type} (k : String) : List (String × CachedQuote α) → Option (CachedQuote α)
  | [] => none
  | (k', v) :: rest => if k' = k then some v else mapFind k rest

/-- `Map.set`: replace the entry with the given key in place, or append. -/
def mapSet {α : Type} (k : String) (v : CachedQuote α) :
    List (String × CachedQuote α) → List (String × CachedQuote α)
  | [] => [(k, v)]
  | (k', v') :: rest => if k' = k then (k, v) :: rest else (k', v') :: mapSet k v rest

/-- `Map.delete`: remove the entry with the given key. -/
def mapDelete {α : Type} (k : String) :
    List (String × CachedQuote α) → List (String × CachedQuote α)
  | [] => []
  | (k', v') :: rest => if k' = k then rest else (k', v') :: mapDelete k rest

/-- Embedding of `QuoteCache.get`: returns the quote (or `none` for a miss)
together with the updated cache state.  An entry whose age exceeds the TTL is
deleted and reported as a miss. -/
def cacheGet {α : Type} (st : QuoteCacheState α) (now : Int)
    (inputMint outputMint : String) (amount : Nat) : Option α × QuoteCacheState α :=
  let key := getCacheKey inputMint outputMint amount
  match mapFind key st.cache with
  | none => (none, { st with misses := st.misses + 1 })
  | some cached =>
      let age := now - cached.timestamp
      if age > cacheTTL then
        (none, { st with cache := mapDelete key st.cache, misses := st.misses + 1 })
      else
        (some cached.quote, { st with hits := st.hits + 1 })

/-- Embedding of `QuoteCache.set`: store the payload under the bucketed key
with the current timestamp. -/
def cacheSet {α : Type} (st : QuoteCacheState α) (now : Int)
    (inputMint outputMint : String) (amount : Nat) (quote : α) : QuoteCacheState α :=
  { st with
    cache := mapSet (getCacheKey inputMint outputMint amount)
      ⟨quote, now, inputMint, outputMint, amount⟩ st.cache }

/-- The loop body of `QuoteCache.cleanup`: traverse the entries, delete each
entry older than the TTL, and count the deletions (the local `removed`
variable of the source). -/
def cleanupAux {α : Type} (now : Int) :
    List (String × CachedQuote α) → List (String × CachedQuote α) × Nat
  | [] => ([], 0)
  | (k, e) :: rest =>
      let r := cleanupAux now rest
      if now - e.timestamp > cacheTTL then (r.1, r.2 + 1) else ((k, e) :: r.1, r.2)

/-- Embedding of `QuoteCache.cleanup`: the method's TypeScript signature is
`cleanup(): void`, so beside the updated state it returns `Unit` — the
`removed` count is only logged, never returned. -/
def cleanup {α : Type} (st : QuoteCacheState α) (now : Int) : QuoteCacheState α × Unit :=
  ({ st with cache := (cleanupAux now st.cache).1 }, ())

/-- The value of the internal `removed` counter of `cleanup` (observable only
via the log line in the source). -/
def cleanupRemoved {α : Type} (st : QuoteCacheState α) (now : Int) : Nat :=
  (cleanupAux now st.cache).2

/-- A fresh `QuoteCache` (`new QuoteCache()`). -/
def emptyCache (α : Type) : QuoteCacheState α := ⟨[], 0, 0⟩

/-- Modelled from the spec: the spec's key-derivation sentence says the
amount is bucketed "to the nearest unit granularity (e.g., nearest 0.001 of
the base unit)", i.e. rounded to the nearest multiple of 1,000,000 raw
units.  This definition follows the spec's words, for comparison with the
source's `getCacheKey`, which floors instead. -/
def specNearestBucket (amount : Nat) : Nat :=
  (amount + 500000) / 1000000 * 1000000

/-- The bucket actually used by the source's `getCacheKey`. -/
def floorBucket (amount : Nat) : Nat := amount / 1000000 * 1000000

/-! ## Cooldown coordinator (src/usage-tracker.mjs)

Process-wide singleton state: `COOLDOWN_MODE`, `cooldownStartTime`,
`rateLimitFailureCount`, `lastFailureTime`, `consecutiveCooldowns`, together
with the observable side effects relevant to the claims — the
`session.botRunning` flags of `userSessions`, the operator alerts sent via
`safeSendMessage`, and the execution queue's rate actuator
(`jupiterQueue.setRequestsPerSecond`).  `Date.now()` values are passed
explicitly; the `await sleep(...)` delays of the source do not change the
modelled state and are elided. -/

/-- The cooldown coordinator's state.  `sessions` is `userSessions`
restricted to each session's `botRunning` flag; `botAvailable` says whether
the `bot` handle is non-null (the `if (session && bot)` test); `alerts`
records the user ids messaged by `safeSendMessage`; `queueRPS` mirrors
`jupiterQueue.requestsPerSecond`. -/
structure CoState where
  cooldownMode : Bool
  cooldownStartTime : Int
  rateLimitFailureCount : Nat
  lastFailureTime : Int
  consecutiveCooldowns : Nat
  sessions : List (Nat × Bool)
  activeTraders : List Nat
  botAvailable : Bool
  alerts : List Nat
  queueRPS : ℚ
  deriving DecidableEq, Repr

/-- `const MAX_CONSECUTIVE_COOLDOWNS = 3`. -/
def maxConsecutiveCooldowns : Nat := 3

/-- `const RATE_LIMIT_THRESHOLD = 2`. -/
def rateLimitThreshold : Nat := 2

/-- `const FAILURE_WINDOW = 10000` (ms). -/
def failureWindow : Int := 10000

/-- `const COOLDOWN_DURATION = 60000` (ms). -/
def cooldownDuration : Int := 60000

/-- `setRequestsPerSecond` clamps its argument to the band 1–10
(`Math.max(1, Math.min(rate, 10))`). -/
def clampRate (r : ℚ) : ℚ := max 1 (min r 10)

/-- The queue's nominal rate: `requestsPerSecond = 4` at initialisation, the
value restored after the post-cooldown grace window. -/
def nominalRate : ℚ := 4

/-- Embedding of `triggerCooldown`: enter cooldown, stamp the start time,
reset the failure counter and increment `consecutiveCooldowns`; at the
ceiling, set `botRunning := false` on every active trader's session and send
each of them the auto-stop alert. -/
def triggerCooldown (st : CoState) (now : Int) : CoState :=
  let st1 := { st with
    cooldownMode := true
    cooldownStartTime := now
    rateLimitFailureCount := 0
    consecutiveCooldowns := st.consecutiveCooldowns + 1 }
  if st1.consecutiveCooldowns ≥ maxConsecutiveCooldowns then
    { st1 with
      sessions := st1.sessions.map (fun s =>
        if s.1 ∈ st1.activeTraders ∧ st1.botAvailable = true then (s.1, false) else s)
      alerts := st1.alerts ++ st1.activeTraders.filter
        (fun uid => (List.lookup uid st1.sessions).isSome && st1.botAvailable) }
  else st1

/-- Embedding of `recordRateLimitFailure`: reset the counter if the last
failure is outside the 10 s window, count the failure, and trigger a
cooldown when the threshold is reached outside cooldown mode. -/
def recordRateLimitFailure (st : CoState) (now : Int) : CoState :=
  let count0 := if now - st.lastFailureTime > failureWindow then 0
                else st.rateLimitFailureCount
  let count1 := count0 + 1
  let st1 := { st with rateLimitFailureCount := count1, lastFailureTime := now }
  if count1 ≥ rateLimitThreshold ∧ st.cooldownMode = false then
    triggerCooldown st1 now
  else st1

/-- Embedding of `checkAndExitCooldown`.  The canary outcomes
(`testRateLimitRecovery` and `testResumptionWithOneWallet`) are passed as
oracle booleans, and the `Date.now()` read on a failed canary as `tRetry`.
The result is the new state, the returned boolean, and the rate restoration
scheduled by `setTimeout` on success (target rate, delay in ms); the sell
queue drain between the two canaries does not touch this state and is
elided. -/
def checkAndExitCooldown (st : CoState) (now : Int)
    (rateLimitTestPassed resumptionTestPassed : Bool) (tRetry : Int) :
    CoState × Bool × Option (ℚ × Int) :=
  if st.cooldownMode = false then (st, true, none)
  else if now - st.cooldownStartTime < cooldownDuration then (st, false, none)
  else if rateLimitTestPassed = false then
    ({ st with cooldownStartTime := tRetry }, false, none)
  else if resumptionTestPassed = false then
    ({ st with cooldownStartTime := tRetry }, false, none)
  else
    ({ st with
        queueRPS := clampRate 2
        cooldownMode := false
        rateLimitFailureCount := 0
        consecutiveCooldowns := 0 },
     true, some (nominalRate, 120000))

/-! ## Request queue (`RequestQueue` in the source)

The queue state is `queue` (an array of wrapped work functions, embedded as
items carrying a submission index and the priority they were added with),
`requestsPerSecond` / `minDelay` / `lastRequestTime` / `activeRequests` /
`maxConcurrent`.  Executions are traces of events: `add` (the `add` method),
`dispatch t` (one iteration of the single `process` drain loop taking the
queue head at `Date.now() = t`; the loop's concurrency wait, pacing sleep
and dequeue are one atomic step, since `process` is the only writer of the
pacing state), `complete i` (the `.finally` of a dispatched item's work),
`clear` (`clearQueue`) and `setRate` (`setRequestsPerSecond`).  Ghost data
instrumented for the proofs: `subs` records every submission's priority (the
submission index is its position), `disp` records the dispatched items
newest-first with dispatch timestamp and the `minDelay` in force, and
`inFlight` the dispatched-but-not-completed submission indices. -/

/-- The `priority` argument of `RequestQueue.add` (`'high' | 'normal'`). -/
inductive Priority where
  | high
  | normal
  deriving DecidableEq, Repr

/-- A queued work item: its submission index and priority. -/
structure QItem where
  id : Nat
  pri : Priority
  deriving DecidableEq, Repr

/-- Ghost record of one dispatch: the item's submission index and priority,
the dispatch timestamp (the value stored into `lastRequestTime`), and the
`minDelay` in force at that dispatch. -/
structure DispatchRec where
  id : Nat
  pri : Priority
  time : ℚ
  delay : ℚ
  deriving DecidableEq, Repr

/-- The queue state plus ghost instrumentation (`subs`, `disp`; `disp` is
newest-first). -/
structure QState where
  subs : List Priority
  queue : List QItem
  disp : List DispatchRec
  inFlight : List Nat
  activeRequests : Nat
  lastRequestTime : ℚ
  requestsPerSecond : ℚ
  minDelay : ℚ
  maxConcurrent : Nat
  deriving DecidableEq, Repr

/-- Events of a queue execution. -/
inductive QEvent where
  | add (p : Priority)
  | dispatch (t : ℚ)
  | complete (i : Nat)
  | clear
  | setRate (r : ℚ)
  deriving DecidableEq, Repr

/-- The initial field values of `RequestQueue`: empty queue,
`requestsPerSecond = 4`, `minDelay = 1000 / requestsPerSecond`,
`lastRequestTime = 0`, `activeRequests = 0`, `maxConcurrent = 1`. -/
def qInit : QState := ⟨[], [], [], [], 0, 0, 4, 1000 / 4, 1⟩

/-- One step of the queue.  `add` unshifts `high` items to the front of the
queue and pushes `normal` items to the back.  `dispatch t` is one drain-loop
iteration: it fires only when the queue is nonempty, `activeRequests` is
below `maxConcurrent` (the `while` wait), and the pacing sleep has brought
`Date.now()` to at least `lastRequestTime + minDelay`; it shifts the queue
head, stamps `lastRequestTime := t` and increments `activeRequests`.
`complete i` is the `.finally` decrement of a dispatched item.  `clear`
empties the queue.  `setRate r` clamps `r` to 1–10 and recomputes
`minDelay`. -/
def step (s : QState) : QEvent → Option QState
  | .add p =>
      let item : QItem := ⟨s.subs.length, p⟩
      some { s with
        subs := s.subs ++ [p]
        queue := if p = .high then item :: s.queue else s.queue ++ [item] }
  | .dispatch t =>
      match s.queue with
      | [] => none
      | item :: rest =>
          if s.activeRequests < s.maxConcurrent ∧ s.lastRequestTime + s.minDelay ≤ t then
            some { s with
              queue := rest
              disp := ⟨item.id, item.pri, t, s.minDelay⟩ :: s.disp
              inFlight := item.id :: s.inFlight
              activeRequests := s.activeRequests + 1
              lastRequestTime := t }
          else none
  | .complete i =>
      if i ∈ s.inFlight then
        some { s with
          inFlight := s.inFlight.erase i
          activeRequests := s.activeRequests - 1 }
      else none
  | .clear => some { s with queue := [] }
  | .setRate r =>
      let r2 := clampRate r
      some { s with requestsPerSecond := r2, minDelay := 1000 / r2 }

/-- Run a queue execution from a given state. -/
def runFrom (s : QState) : List QEvent → Option QState
  | [] => some s
  | e :: es =>
      match step s e with
      | none => none
      | some s' => runFrom s' es

/-- Run a queue execution from the initial state. -/
def run (es : List QEvent) : Option QState := runFrom qInit es

/-- The inductive invariant of the queue: the pacing chain on the dispatch
records, `lastRequestTime` tracking the newest dispatch, the concurrency
bound, id freshness and bookkeeping, FIFO order of the queued `normal`
items, dispatched `normal` items increasing in submission order (the list is
newest-first, hence `>`), every queued `normal` item newer than every
dispatched one, and `minDelay = 1000 / requestsPerSecond`. -/
structure QInv (s : QState) : Prop where
  chain : List.Chain' (fun a b => b.time + a.delay ≤ a.time) s.disp
  last_eq : s.lastRequestTime = ((s.disp.head?).map DispatchRec.time).getD 0
  active_le : s.activeRequests ≤ s.maxConcurrent
  active_eq : s.activeRequests = s.inFlight.length
  nodup : (s.queue.map QItem.id ++ s.disp.map DispatchRec.id).Nodup
  bounded : ∀ i ∈ s.queue.map QItem.id ++ s.disp.map DispatchRec.id, i < s.subs.length
  subs_queue : ∀ it ∈ s.queue, s.subs.get? it.id = some it.pri
  subs_disp : ∀ d ∈ s.disp, s.subs.get? d.id = some d.pri
  normal_queue_sorted : List.Pairwise (· < ·)
    ((s.queue.filter (fun it => decide (it.pri = Priority.normal))).map QItem.id)
  normal_disp_sorted : List.Pairwise (· > ·)
    ((s.disp.filter (fun d => decide (d.pri = Priority.normal))).map DispatchRec.id)
  queue_gt_disp : ∀ it ∈ s.queue, it.pri = Priority.normal →
    ∀ d ∈ s.disp, d.pri = Priority.normal → d.id < it.id
  delay_eq : s.minDelay = 1000 / s.requestsPerSecond

/-- Conservation (holds on `clearQueue`-free executions): the queued and
dispatched submission indices together are exactly the submitted ones. -/
def QConserved (s : QState) : Prop :=
  (s.queue.map QItem.id ++ s.disp.map DispatchRec.id).Perm (List.range s.subs.length)

/-- An item `x` queued when item `h` was unshifted in front of it stays
behind `h`: either `h` is still ahead of `x` in the queue, or `h` has been
dispatched; and if `x` has been dispatched, `h` was dispatched before it
(`disp` is newest-first). -/
def AheadInv (h x : Nat) (s : QState) : Prop :=
  (h < s.subs.length ∧ x < s.subs.length) ∧
  (x ∈ s.queue.map QItem.id →
    ([h, x].Sublist (s.queue.map QItem.id) ∨ h ∈ s.disp.map DispatchRec.id)) ∧
  (x ∈ s.disp.map DispatchRec.id → [x, h].Sublist (s.disp.map DispatchRec.id))

/-- A demonstration trace: a `normal` then a `high` submission, the `high`
one dispatched first at t = 100000 ms, the `normal` one 250 ms later. -/
def qDemoTrace : List QEvent :=
  [.add .normal, .add .high, .dispatch 100000, .complete 1,
   .dispatch 100250, .complete 0]

/-- The final state of `qDemoTrace`. -/
def qDemoFinal : QState :=
  ⟨[.normal, .high], [],
   [⟨0, .normal, 100250, 250⟩, ⟨1, .high, 100000, 250⟩],
   [], 0, 100250, 4, 250, 1⟩

end VolumeBot

namespace VolumeBot

/-! ### Quote-cache lemmas -/

theorem mapFind_mapSet_self {α : Type} (k : String) (v : CachedQuote α) :
    ∀ l : List (String × CachedQuote α), mapFind k (mapSet k v l) = some v := by
  intro l
  induction l with
  | nil => simp [mapSet, mapFind]
  | cons hd tl ih =>
      obtain ⟨k', v'⟩ := hd
      by_cases hk : k' = k
      · simp [mapSet, hk, mapFind]
      · simp [mapSet, hk, mapFind, ih]

theorem mapFind_mapDelete_self {α : Type} (k : String) :
    ∀ l : List (String × CachedQuote α), (l.map Prod.fst).Nodup →
      mapFind k (mapDelete k l) = none := by
  intro l
  induction l with
  | nil => intro _; simp [mapDelete, mapFind]
  | cons hd tl ih =>
      obtain ⟨k', v'⟩ := hd
      intro hnd
      simp only [List.map_cons, List.nodup_cons] at hnd
      by_cases hk : k' = k
      · subst hk
        simp only [mapDelete, if_pos rfl]
        -- `k'` does not occur among the keys of `tl`, so the find misses
        clear ih
        induction tl with
        | nil => simp [mapFind]
        | cons hd2 tl2 ih2 =>
            obtain ⟨k2, v2⟩ := hd2
            simp only [List.map_cons, List.mem_cons, List.nodup_cons] at hnd
            have hk2 : k2 ≠ k' := fun h => hnd.1 (Or.inl h.symm)
            simp only [mapFind, if_neg hk2]
            exact ih2 ⟨fun hm => hnd.1 (Or.inr hm), hnd.2.2⟩
      · simp only [mapDelete, if_neg hk, mapFind]
        exact ih hnd.2

theorem cleanupAux_spec {α : Type} (now : Int) :
    ∀ l : List (String × CachedQuote α),
      (cleanupAux now l).1 = l.filter (fun p => decide (now - p.2.timestamp ≤ cacheTTL)) ∧
      (cleanupAux now l).2 = l.countP (fun p => decide (now - p.2.timestamp > cacheTTL)) := by
  intro l
  induction l with
  | nil => simp [cleanupAux]
  | cons hd tl ih =>
      obtain ⟨k, e⟩ := hd
      by_cases hexp : now - e.timestamp > cacheTTL
      · have hc1 : ¬ now ≤ cacheTTL + e.timestamp := by push_neg; linarith
        have hc2 : cacheTTL + e.timestamp < now := by linarith
        simp [cleanupAux, hexp, List.filter_cons, List.countP_cons, ih.1, ih.2, hc1, hc2]
      · have hle : now - e.timestamp ≤ cacheTTL := not_lt.mp hexp
        have hc1 : now ≤ cacheTTL + e.timestamp := by linarith
        have hc2 : ¬ cacheTTL + e.timestamp < now := by push_neg; linarith
        simp [cleanupAux, hexp, List.filter_cons, List.countP_cons, ih.1, ih.2, hc1, hc2]

/-! ### C7 -/

/-- C7: the quote cache never returns an entry older than the 20 s TTL as a
hit — if the stored entry's age exceeds the TTL, `get` returns a miss
(`none`) and lazily evicts the expired entry; conversely every hit comes
from an entry whose age is at most the TTL. -/
theorem quoteCache_no_stale_hit {α : Type} (st : QuoteCacheState α) (now : Int)
    (im om : String) (amount : Nat)
    (hnd : (st.cache.map Prod.fst).Nodup) :
    (∀ e, mapFind (getCacheKey im om amount) st.cache = some e →
      now - e.timestamp > cacheTTL →
      (cacheGet st now im om amount).1 = none ∧
      mapFind (getCacheKey im om amount) (cacheGet st now im om amount).2.cache = none) ∧
    (∀ q, (cacheGet st now im om amount).1 = some q →
      ∃ e, mapFind (getCacheKey im om amount) st.cache = some e ∧
        now - e.timestamp ≤ cacheTTL ∧ e.quote = q) := by
  constructor
  · intro e hfind hexp
    constructor
    · simp [cacheGet, hfind, if_pos hexp]
    · simp only [cacheGet, hfind, if_pos hexp]
      exact mapFind_mapDelete_self _ _ hnd
  · intro q hq
    simp only [cacheGet] at hq
    cases hfind : mapFind (getCacheKey im om amount) st.cache with
    | none => rw [hfind] at hq; simp at hq
    | some e =>
        rw [hfind] at hq
        by_cases hexp : now - e.timestamp > cacheTTL
        · simp [hexp] at hq
        · simp [hexp] at hq
          exact ⟨e, rfl, not_lt.mp hexp, hq⟩

/-- C7 witness: with a single entry stored at time 0 and read at time 25000
(age 25 s > 20 s TTL), `get` misses and the entry is evicted. -/
theorem quoteCache_no_stale_hit_witness :
    (cacheGet (cacheSet (emptyCache Nat) 0 "SOL" "USDC" 1000000 7)
        25000 "SOL" "USDC" 1000000).1 = none ∧
    mapFind (getCacheKey "SOL" "USDC" 1000000)
      (cacheGet (cacheSet (emptyCache Nat) 0 "SOL" "USDC" 1000000 7)
        25000 "SOL" "USDC" 1000000).2.cache = none :=
  (quoteCache_no_stale_hit (cacheSet (emptyCache Nat) 0 "SOL" "USDC" 1000000 7)
      25000 "SOL" "USDC" 1000000 (by decide)).1
    ⟨7, 0, "SOL", "USDC", 1000000⟩ (by decide) (by decide)

/-! ### C8 -/

/-- C8 counterexample: the claim says the amount is bucketed to the *nearest*
1,000,000-raw-unit granularity, under which 1,600,000 and 2,000,000 share a
bucket (both round to 2,000,000); but in the code `set` at 1,600,000 followed
immediately by `get` at 2,000,000 is a miss, because `getCacheKey` floors the
amount (buckets 1,000,000 vs 2,000,000). -/
theorem quoteCache_nearest_bucket_counterexample :
    specNearestBucket 1600000 = 2000000 ∧
    specNearestBucket 2000000 = 2000000 ∧
    (cacheGet (cacheSet (emptyCache Nat) 0 "SOL" "USDC" 1600000 7)
        0 "SOL" "USDC" 2000000).1 = none := by
  refine ⟨by decide, by decide, by decide⟩

/-- C8 amended: key derivation buckets the amount *downward* (floor) to the
1,000,000-raw-unit (0.001 base-unit) granularity, so amounts with the same
floor bucket share one cache entry: a `set` followed immediately by a `get`
whose amount lies in the same floor bucket returns the stored payload; and
concretely `set("SOL","USDC",1_000_000, X)` then `get("SOL","USDC",1_000_400)`
returns `X` while `get("SOL","USDC",5_000_000)` is a miss. -/
theorem quoteCache_floor_bucket_sharing {α : Type} (st : QuoteCacheState α)
    (now : Int) (im om : String) (a₁ a₂ : Nat) (q : α)
    (hb : floorBucket a₁ = floorBucket a₂) :
    (cacheGet (cacheSet st now im om a₁ q) now im om a₂).1 = some q ∧
    (cacheGet (cacheSet (emptyCache Nat) 0 "SOL" "USDC" 1000000 7)
        0 "SOL" "USDC" 1000400).1 = some 7 ∧
    (cacheGet (cacheSet (emptyCache Nat) 0 "SOL" "USDC" 1000000 7)
        0 "SOL" "USDC" 5000000).1 = none := by
  refine ⟨?_, by decide, by decide⟩
  have hkey : getCacheKey im om a₁ = getCacheKey im om a₂ := by
    simp only [getCacheKey]
    simp only [floorBucket] at hb
    rw [hb]
  have hfind := mapFind_mapSet_self (getCacheKey im om a₁)
    (⟨q, now, im, om, a₁⟩ : CachedQuote α) st.cache
  simp only [cacheGet, cacheSet, hkey] at hfind ⊢
  rw [hfind]
  have hage : ¬ (cacheTTL : Int) < 0 := by decide
  simp [hage]

/-- C8 amended witness: amounts 1,000,000 and 1,000,400 share the floor
bucket, and `get` right after `set` returns the payload. -/
theorem quoteCache_floor_bucket_sharing_witness :
    (cacheGet (cacheSet (emptyCache Nat) 5 "SOL" "USDC" 1000000 42)
        5 "SOL" "USDC" 1000400).1 = some 42 :=
  (quoteCache_floor_bucket_sharing (emptyCache Nat) 5 "SOL" "USDC"
      1000000 1000400 42 (by decide)).1

/-! ### C10 -/

/-- C10 counterexample: `cleanup` is declared `cleanup(): void` and returns
no value — its return value is the same `Unit` on a cache that evicts one
entry (one entry of age 30 s) as on a cache that evicts none, so the return
value cannot be the evicted count demanded by the claimed contract
`cleanup() → evictedCount`. -/
theorem cleanup_returns_void_counterexample :
    (cleanup (⟨[("k", ⟨1, 0, "SOL", "USDC", 1000000⟩)], 0, 0⟩ : QuoteCacheState Nat)
        30000).2 =
      (cleanup (emptyCache Nat) 30000).2 ∧
    cleanupRemoved (⟨[("k", ⟨1, 0, "SOL", "USDC", 1000000⟩)], 0, 0⟩ : QuoteCacheState Nat)
        30000 = 1 ∧
    cleanupRemoved (emptyCache Nat) 30000 = 0 := by
  refine ⟨rfl, by decide, by decide⟩

/-- C10 amended: `cleanup` removes exactly the entries older than the TTL
(the surviving cache is the sublist of entries aged at most the TTL), and its
internal `removed` counter — which is logged, not returned; the method's
return type is `void` — equals the number of evicted entries. -/
theorem cleanup_removes_exactly_expired {α : Type} (st : QuoteCacheState α) (now : Int) :
    (cleanup st now).1.cache =
      st.cache.filter (fun p => decide (now - p.2.timestamp ≤ cacheTTL)) ∧
    cleanupRemoved st now =
      st.cache.countP (fun p => decide (now - p.2.timestamp > cacheTTL)) ∧
    (cleanup st now).2 = () := by
  refine ⟨?_, ?_, rfl⟩
  · simp only [cleanup]
    exact (cleanupAux_spec now st.cache).1
  · simp only [cleanupRemoved]
    exact (cleanupAux_spec now st.cache).2

/-! ### Cooldown-coordinator lemmas -/

theorem triggerCooldown_mode (s : CoState) (t : Int) :
    (triggerCooldown s t).cooldownMode = true := by
  simp only [triggerCooldown]
  split <;> rfl

theorem record_first_failure (st : CoState) (t : Int)
    (hcount : st.rateLimitFailureCount = 0) :
    recordRateLimitFailure st t =
      { st with rateLimitFailureCount := 1, lastFailureTime := t } := by
  by_cases hw : t - st.lastFailureTime > failureWindow
  · simp [recordRateLimitFailure, hw, hcount, rateLimitThreshold]
  · simp [recordRateLimitFailure, hw, hcount, rateLimitThreshold]

theorem checkAndExit_success_state (st : CoState) (now : Int) (rl rt : Bool)
    (tR : Int) (hmode : st.cooldownMode = true)
    (hres : (checkAndExitCooldown st now rl rt tR).2.1 = true) :
    checkAndExitCooldown st now rl rt tR =
      ({ st with
          queueRPS := clampRate 2
          cooldownMode := false
          rateLimitFailureCount := 0
          consecutiveCooldowns := 0 },
       true, some (nominalRate, 120000)) := by
  by_cases h1 : now - st.cooldownStartTime < cooldownDuration
  · simp [checkAndExitCooldown, hmode, h1] at hres
  · cases rl with
    | false => simp [checkAndExitCooldown, hmode, h1] at hres
    | true =>
        cases rt with
        | false => simp [checkAndExitCooldown, hmode, h1] at hres
        | true => simp [checkAndExitCooldown, hmode, h1]

/-! ### C4 -/

/-- C4: starting from Normal mode with a clean failure counter, a single
rate-limit failure does not transition; a second failure at most 10 s after
the first reaches the threshold of 2 and transitions Normal → Cooldown
(`COOLDOWN_MODE` becomes true); a second failure more than 10 s later finds
the sliding window expired, resets the count to 1, and does not transition. -/
theorem cooldown_window_transitions (st : CoState) (t₁ t₂ : Int)
    (hmode : st.cooldownMode = false) (hcount : st.rateLimitFailureCount = 0) :
    ((recordRateLimitFailure st t₁).cooldownMode = false) ∧
    (t₂ - t₁ ≤ failureWindow →
      (recordRateLimitFailure (recordRateLimitFailure st t₁) t₂).cooldownMode = true) ∧
    (t₂ - t₁ > failureWindow →
      (recordRateLimitFailure (recordRateLimitFailure st t₁) t₂).cooldownMode = false ∧
      (recordRateLimitFailure (recordRateLimitFailure st t₁) t₂).rateLimitFailureCount
        = 1) := by
  have h1 := record_first_failure st t₁ hcount
  refine ⟨?_, ?_, ?_⟩
  · rw [h1]; exact hmode
  · intro hin
    rw [h1]
    have hw : ¬ t₂ - t₁ > failureWindow := not_lt.mpr hin
    simp [recordRateLimitFailure, hw, rateLimitThreshold, hmode,
      triggerCooldown_mode]
  · intro hout
    rw [h1]
    simp [recordRateLimitFailure, hout, rateLimitThreshold, hmode]

/-- C4 witness: failures at 100 s and 105 s (5 s apart, inside the 10 s
window) send a Normal-mode coordinator into cooldown. -/
theorem cooldown_window_transitions_witness :
    (recordRateLimitFailure
      (recordRateLimitFailure (⟨false, 0, 0, 0, 0, [], [], true, [], 4⟩ : CoState)
        100000) 105000).cooldownMode = true :=
  (cooldown_window_transitions ⟨false, 0, 0, 0, 0, [], [], true, [], 4⟩
      100000 105000 rfl rfl).2.1 (by decide)

/-! ### C5 -/

/-- C5: the third consecutive entry into cooldown (counter going 2 → 3,
reaching the ceiling) makes `triggerCooldown` set `botRunning := false` on
every active trader's session and send each active trader with a session the
operator auto-stop alert; and a successful resume (`checkAndExitCooldown`
returning true from cooldown) resets the consecutive-cooldown counter to 0,
so the ceiling is never reached across a successful recovery. -/
theorem cooldown_ceiling_fatal_stop (st : CoState) (now : Int)
    (h2 : st.consecutiveCooldowns = 2) (hbot : st.botAvailable = true) :
    (triggerCooldown st now).consecutiveCooldowns = 3 ∧
    (∀ uid b, (uid, b) ∈ (triggerCooldown st now).sessions →
      uid ∈ st.activeTraders → b = false) ∧
    (∀ uid, uid ∈ st.activeTraders → (List.lookup uid st.sessions).isSome = true →
      uid ∈ (triggerCooldown st now).alerts) ∧
    (∀ st' now' rl rt tR, st'.cooldownMode = true →
      (checkAndExitCooldown st' now' rl rt tR).2.1 = true →
      (checkAndExitCooldown st' now' rl rt tR).1.consecutiveCooldowns = 0) := by
  refine ⟨?_, ?_, ?_, ?_⟩
  · simp [triggerCooldown, h2, maxConsecutiveCooldowns]
  · intro uid b hmem hact
    simp only [triggerCooldown, h2, maxConsecutiveCooldowns] at hmem
    rw [if_pos (by norm_num)] at hmem
    simp only [List.mem_map] at hmem
    obtain ⟨s, hs, hfs⟩ := hmem
    by_cases hc : s.1 ∈ st.activeTraders ∧ st.botAvailable = true
    · rw [if_pos hc] at hfs
      exact (Prod.mk.injEq _ _ _ _).mp hfs |>.2.symm
    · rw [if_neg hc] at hfs
      subst hfs
      exact absurd ⟨hact, hbot⟩ hc
  · intro uid hact hlk
    simp only [triggerCooldown, h2, maxConsecutiveCooldowns]
    rw [if_pos (by norm_num)]
    refine List.mem_append.mpr (Or.inr ?_)
    refine List.mem_filter.mpr ⟨hact, ?_⟩
    simp [hlk, hbot]
  · intro st' now' rl rt tR hm hr
    rw [checkAndExit_success_state st' now' rl rt tR hm hr]

/-- C5 witness: a coordinator with two prior consecutive cooldowns, one
active trader with a running session, entering cooldown a third time: the
counter reaches 3, the session's botRunning flag is cleared, and the trader
is alerted. -/
theorem cooldown_ceiling_fatal_stop_witness :
    (triggerCooldown (⟨true, 0, 0, 0, 2, [(1, true)], [1], true, [], 4⟩ : CoState)
      0).consecutiveCooldowns = 3 :=
  (cooldown_ceiling_fatal_stop ⟨true, 0, 0, 0, 2, [(1, true)], [1], true, [], 4⟩
      0 rfl rfl).1

/-! ### C6 -/

/-- C6: whenever `checkAndExitCooldown` is called in cooldown mode and
returns true (hold expired, recovery canary and resumption canary both
successful), it resets `rateLimitFailureCount` and the consecutive-cooldown
counter to zero, leaves cooldown mode, drops the queue's rate actuator to
2 req/s — half the nominal 4 req/s — and schedules the restoration of the
nominal rate after the 120 s grace window. -/
theorem cooldown_successful_resume (st : CoState) (now : Int) (rl rt : Bool)
    (tR : Int) (hmode : st.cooldownMode = true)
    (hres : (checkAndExitCooldown st now rl rt tR).2.1 = true) :
    (checkAndExitCooldown st now rl rt tR).1.rateLimitFailureCount = 0 ∧
    (checkAndExitCooldown st now rl rt tR).1.consecutiveCooldowns = 0 ∧
    (checkAndExitCooldown st now rl rt tR).1.cooldownMode = false ∧
    (checkAndExitCooldown st now rl rt tR).1.queueRPS = nominalRate / 2 ∧
    (checkAndExitCooldown st now rl rt tR).2.2 = some (nominalRate, 120000) := by
  rw [checkAndExit_success_state st now rl rt tR hmode hres]
  refine ⟨rfl, rfl, rfl, ?_, rfl⟩
  show clampRate 2 = nominalRate / 2
  have hmin : min (2 : ℚ) 10 = 2 := min_eq_left (by norm_num)
  have hmax : max (1 : ℚ) 2 = 2 := max_eq_right (by norm_num)
  rw [clampRate, hmin, hmax, nominalRate]
  norm_num

/-- C6 witness: a coordinator 70 s into a cooldown (hold of 60 s expired)
with both canaries passing resets its consecutive-cooldown counter. -/
theorem cooldown_successful_resume_witness :
    (checkAndExitCooldown (⟨true, 0, 5, 0, 2, [], [], true, [], 4⟩ : CoState)
      70000 true true 0).1.consecutiveCooldowns = 0 :=
  (cooldown_successful_resume ⟨true, 0, 5, 0, 2, [], [], true, [], 4⟩
      70000 true true 0 rfl (by decide)).2.1

/-! ### Request-queue invariant machinery -/

theorem filter_cons_pos {α : Type} (p : α → Bool) (a : α) (l : List α)
    (h : p a = true) : (a :: l).filter p = a :: l.filter p := by
  simp [List.filter_cons, h]

theorem filter_cons_neg {α : Type} (p : α → Bool) (a : α) (l : List α)
    (h : p a = false) : (a :: l).filter p = l.filter p := by
  simp [List.filter_cons, h]

theorem runFrom_preserve (P : QState → Prop)
    (hstep : ∀ s e s', P s → step s e = some s' → P s') :
    ∀ es s s', P s → runFrom s es = some s' → P s' := by
  intro es
  induction es with
  | nil =>
      intro s s' h hr
      simp only [runFrom] at hr
      exact (Option.some.inj hr) ▸ h
  | cons e es ih =>
      intro s s' h hr
      simp only [runFrom] at hr
      cases hs : step s e with
      | none => rw [hs] at hr; simp at hr
      | some s1 => rw [hs] at hr; exact ih s1 s' (hstep s e s1 h hs) hr

theorem qInit_inv : QInv qInit := by
  constructor <;> simp [qInit]

theorem step_inv {s : QState} {e : QEvent} {s' : QState}
    (hinv : QInv s) (hstep : step s e = some s') : QInv s' := by
  obtain ⟨chain, last_eq, active_le, active_eq, nodup, bounded, subs_queue, subs_disp,
    nqs, nds, qgd, delay_eq⟩ := hinv
  cases e with
  | add p =>
      simp only [step] at hstep
      obtain rfl := Option.some.inj hstep
      cases p with
      | high =>
          rw [if_pos rfl]
          constructor
          · exact chain
          · exact last_eq
          · exact active_le
          · exact active_eq
          · -- nodup
            simp only [List.map_cons, List.cons_append]
            refine List.nodup_cons.mpr ⟨?_, nodup⟩
            intro hmem
            exact absurd (bounded _ hmem) (lt_irrefl _)
          · -- bounded
            intro i hi
            simp only [List.map_cons, List.cons_append, List.mem_cons] at hi
            rw [List.length_append, List.length_singleton]
            rcases hi with rfl | hi
            · exact Nat.lt_succ_self _
            · exact Nat.lt_succ_of_lt (bounded i hi)
          · -- subs_queue
            intro it hit
            rcases List.mem_cons.mp hit with rfl | hit
            · exact List.get?_concat_length _ _
            · rw [List.get?_append (bounded _ (List.mem_append_left _
                (List.mem_map_of_mem QItem.id hit)))]
              exact subs_queue it hit
          · -- subs_disp
            intro d hd
            rw [List.get?_append (bounded _ (List.mem_append_right _
              (List.mem_map_of_mem DispatchRec.id hd)))]
            exact subs_disp d hd
          · -- normal_queue_sorted
            simp only [List.filter_cons]
            norm_num
            exact nqs
          · exact nds
          · -- queue_gt_disp
            intro it hit hnorm d hd hdn
            rcases List.mem_cons.mp hit with rfl | hit
            · simp at hnorm
            · exact qgd it hit hnorm d hd hdn
          · exact delay_eq
      | normal =>
          rw [if_neg (by decide)]
          have hperm : ((s.queue ++ [(⟨s.subs.length, Priority.normal⟩ : QItem)]).map
                QItem.id ++ s.disp.map DispatchRec.id).Perm
              (s.subs.length :: (s.queue.map QItem.id ++ s.disp.map DispatchRec.id)) := by
            simp only [List.map_append, List.map_cons, List.map_nil, List.append_assoc,
              List.singleton_append]
            exact List.perm_middle
          constructor
          · exact chain
          · exact last_eq
          · exact active_le
          · exact active_eq
          · -- nodup
            refine (hperm.nodup_iff).mpr ?_
            refine List.nodup_cons.mpr ⟨?_, nodup⟩
            intro hmem
            exact absurd (bounded _ hmem) (lt_irrefl _)
          · -- bounded
            intro i hi
            rw [List.length_append, List.length_singleton]
            have := hperm.mem_iff.mp hi
            rcases List.mem_cons.mp this with rfl | hi2
            · exact Nat.lt_succ_self _
            · exact Nat.lt_succ_of_lt (bounded i hi2)
          · -- subs_queue
            intro it hit
            rcases List.mem_append.mp hit with hit | hit
            · rw [List.get?_append (bounded _ (List.mem_append_left _
                (List.mem_map_of_mem QItem.id hit)))]
              exact subs_queue it hit
            · rcases List.mem_singleton.mp hit with rfl
              exact List.get?_concat_length _ _
          · -- subs_disp
            intro d hd
            rw [List.get?_append (bounded _ (List.mem_append_right _
              (List.mem_map_of_mem DispatchRec.id hd)))]
            exact subs_disp d hd
          · -- normal_queue_sorted
            rw [List.filter_append, List.map_append]
            refine List.pairwise_append.mpr ⟨nqs, ?_, ?_⟩
            · simp
            · intro a ha b hb
              simp only [List.filter_cons, List.filter_nil] at hb
              norm_num at hb
              subst hb
              obtain ⟨it, hit, rfl⟩ := List.mem_map.mp ha
              exact bounded _ (List.mem_append_left _
                (List.mem_map_of_mem QItem.id (List.mem_of_mem_filter hit)))
          · exact nds
          · -- queue_gt_disp
            intro it hit hnorm d hd hdn
            rcases List.mem_append.mp hit with hit | hit
            · exact qgd it hit hnorm d hd hdn
            · rcases List.mem_singleton.mp hit with rfl
              exact bounded _ (List.mem_append_right _
                (List.mem_map_of_mem DispatchRec.id hd))
          · exact delay_eq
  | dispatch t =>
      simp only [step] at hstep
      cases hq : s.queue with
      | nil =>
          rw [hq] at hstep
          replace hstep : (none : Option QState) = some s' := hstep
          exact absurd hstep (by simp)
      | cons item rest =>
          rw [hq] at hstep
          replace hstep : (if s.activeRequests < s.maxConcurrent ∧
              s.lastRequestTime + s.minDelay ≤ t then
                some { s with
                  queue := rest
                  disp := ⟨item.id, item.pri, t, s.minDelay⟩ :: s.disp
                  inFlight := item.id :: s.inFlight
                  activeRequests := s.activeRequests + 1
                  lastRequestTime := t }
              else none) = some s' := hstep
          by_cases hg : s.activeRequests < s.maxConcurrent ∧
              s.lastRequestTime + s.minDelay ≤ t
          · rw [if_pos hg] at hstep
            obtain rfl := Option.some.inj hstep
            rw [hq] at nodup bounded subs_queue nqs qgd
            constructor
            · -- chain
              refine List.chain'_cons'.mpr ⟨?_, chain⟩
              intro b hb
              cases hd : s.disp with
              | nil => rw [hd] at hb; simp at hb
              | cons d0 ds =>
                  rw [hd] at hb
                  simp only [List.head?_cons, Option.mem_def, Option.some.injEq] at hb
                  subst hb
                  rw [hd] at last_eq
                  simp only [List.head?_cons, Option.map_some, Option.getD_some] at last_eq
                  rw [last_eq] at hg
                  exact hg.2
            · -- last_eq
              simp
            · -- active_le
              exact hg.1
            · -- active_eq
              simp [active_eq]
            · -- nodup
              have hpm : (rest.map QItem.id ++
                  (item.id :: s.disp.map DispatchRec.id)).Perm
                  (item.id :: (rest.map QItem.id ++ s.disp.map DispatchRec.id)) :=
                List.perm_middle
              show (rest.map QItem.id ++
                (item.id :: s.disp.map DispatchRec.id)).Nodup
              refine hpm.nodup_iff.mpr ?_
              simpa using nodup
            · -- bounded
              intro i hi
              refine bounded i ?_
              simp only [List.map_cons, List.cons_append, List.mem_cons,
                List.mem_append] at hi ⊢
              tauto
            · -- subs_queue
              intro it2 hit2
              exact subs_queue it2 (List.mem_cons_of_mem _ hit2)
            · -- subs_disp
              intro d hd
              rcases List.mem_cons.mp hd with rfl | hd
              · exact subs_queue item (List.mem_cons_self _ _)
              · exact subs_disp d hd
            · -- normal_queue_sorted
              refine List.Pairwise.sublist ?_ nqs
              exact ((List.sublist_cons_self _ _).filter _).map _
            · -- normal_disp_sorted
              show List.Pairwise (· > ·)
                ((((⟨item.id, item.pri, t, s.minDelay⟩ : DispatchRec) :: s.disp).filter
                  (fun d => decide (d.pri = Priority.normal))).map DispatchRec.id)
              cases hpri : item.pri with
              | high =>
                  rw [filter_cons_neg _ _ _ (by simp)]
                  exact nds
              | normal =>
                  rw [filter_cons_pos _ _ _ (by simp), List.map_cons]
                  refine List.pairwise_cons.mpr ⟨?_, nds⟩
                  intro b hb
                  obtain ⟨d, hd, rfl⟩ := List.mem_map.mp hb
                  have hdn : d.pri = Priority.normal := by
                    simpa using (List.mem_filter.mp hd).2
                  exact qgd item (List.mem_cons_self _ _) hpri d
                    (List.mem_of_mem_filter hd) hdn
            · -- queue_gt_disp
              intro it2 hit2 hnorm d hd hdn
              rcases List.mem_cons.mp hd with rfl | hd
              · -- d is the new dispatch record carrying item.pri
                have hip : item.pri = Priority.normal := hdn
                have hnq := nqs
                rw [filter_cons_pos _ _ _ (by simp [hip]), List.map_cons] at hnq
                have hhead := (List.pairwise_cons.mp hnq).1
                show item.id < it2.id
                exact hhead it2.id (List.mem_map_of_mem QItem.id
                  (List.mem_filter.mpr ⟨hit2, by simp [hnorm]⟩))
              · exact qgd it2 (List.mem_cons_of_mem _ hit2) hnorm d hd hdn
            · -- delay_eq
              exact delay_eq
          · rw [if_neg hg] at hstep
            exact absurd hstep (by simp)
  | complete i =>
      simp only [step] at hstep
      by_cases hm : i ∈ s.inFlight
      · rw [if_pos hm] at hstep
        obtain rfl := Option.some.inj hstep
        constructor
        · exact chain
        · exact last_eq
        · exact le_trans (Nat.sub_le _ _) active_le
        · rw [List.length_erase_of_mem hm, active_eq]
        · exact nodup
        · exact bounded
        · exact subs_queue
        · exact subs_disp
        · exact nqs
        · exact nds
        · exact qgd
        · exact delay_eq
      · rw [if_neg hm] at hstep
        exact absurd hstep (by simp)
  | clear =>
      simp only [step] at hstep
      obtain rfl := Option.some.inj hstep
      constructor
      · exact chain
      · exact last_eq
      · exact active_le
      · exact active_eq
      · simpa using nodup.sublist (List.sublist_append_right _ _)
      · intro i hi
        exact bounded i (List.mem_append_right _ (by simpa using hi))
      · intro it hit; simp at hit
      · exact subs_disp
      · simp
      · exact nds
      · intro it hit; simp at hit
      · exact delay_eq
  | setRate r =>
      simp only [step] at hstep
      obtain rfl := Option.some.inj hstep
      constructor
      · exact chain
      · exact last_eq
      · exact active_le
      · exact active_eq
      · exact nodup
      · exact bounded
      · exact subs_queue
      · exact subs_disp
      · exact nqs
      · exact nds
      · exact qgd
      · rfl

theorem run_inv {es : List QEvent} {s : QState} (h : run es = some s) : QInv s :=
  runFrom_preserve QInv (fun s e s' hp hs => step_inv hp hs) es qInit s qInit_inv h

theorem step_conserved {s : QState} {e : QEvent} {s' : QState}
    (hne : e ≠ QEvent.clear) (hc : QConserved s) (hstep : step s e = some s') :
    QConserved s' := by
  unfold QConserved at hc ⊢
  cases e with
  | add p =>
      simp only [step] at hstep
      obtain rfl := Option.some.inj hstep
      cases p with
      | high =>
          rw [if_pos rfl]
          simp only [List.map_cons, List.cons_append, List.length_append,
            List.length_singleton, List.range_succ]
          exact (hc.cons _).trans (List.perm_append_singleton _ _).symm
      | normal =>
          rw [if_neg (by decide)]
          simp only [List.map_append, List.map_cons, List.map_nil,
            List.append_assoc, List.singleton_append, List.length_append,
            List.length_singleton, List.range_succ]
          exact (List.perm_middle.trans (hc.cons _)).trans
            (List.perm_append_singleton _ _).symm
  | dispatch t =>
      simp only [step] at hstep
      cases hq : s.queue with
      | nil =>
          rw [hq] at hstep
          replace hstep : (none : Option QState) = some s' := hstep
          exact absurd hstep (by simp)
      | cons item rest =>
          rw [hq] at hstep
          replace hstep : (if s.activeRequests < s.maxConcurrent ∧
              s.lastRequestTime + s.minDelay ≤ t then
                some { s with
                  queue := rest
                  disp := ⟨item.id, item.pri, t, s.minDelay⟩ :: s.disp
                  inFlight := item.id :: s.inFlight
                  activeRequests := s.activeRequests + 1
                  lastRequestTime := t }
              else none) = some s' := hstep
          by_cases hg : s.activeRequests < s.maxConcurrent ∧
              s.lastRequestTime + s.minDelay ≤ t
          · rw [if_pos hg] at hstep
            obtain rfl := Option.some.inj hstep
            rw [hq] at hc
            simp only [List.map_cons, List.cons_append] at hc
            simp only [List.map_cons]
            exact List.perm_middle.trans hc
          · rw [if_neg hg] at hstep
            exact absurd hstep (by simp)
  | complete i =>
      simp only [step] at hstep
      by_cases hm : i ∈ s.inFlight
      · rw [if_pos hm] at hstep
        obtain rfl := Option.some.inj hstep
        exact hc
      · rw [if_neg hm] at hstep
        exact absurd hstep (by simp)
  | clear => exact absurd rfl hne
  | setRate r =>
      simp only [step] at hstep
      obtain rfl := Option.some.inj hstep
      exact hc

theorem runFrom_conserved :
    ∀ es s s', (∀ e ∈ es, e ≠ QEvent.clear) → QConserved s →
      runFrom s es = some s' → QConserved s' := by
  intro es
  induction es with
  | nil =>
      intro s s' _ hc hr
      simp only [runFrom] at hr
      exact (Option.some.inj hr) ▸ hc
  | cons e es ih =>
      intro s s' hne hc hr
      simp only [runFrom] at hr
      cases hs : step s e with
      | none => rw [hs] at hr; simp at hr
      | some s1 =>
          rw [hs] at hr
          exact ih s1 s' (fun e' he' => hne e' (List.mem_cons_of_mem _ he'))
            (step_conserved (hne e (List.mem_cons_self _ _)) hc hs) hr

theorem qInit_conserved : QConserved qInit := by
  simp [QConserved, qInit]

theorem step_ahead {h x : Nat} {s : QState} {e : QEvent} {s' : QState}
    (hxh : x ≠ h) (hinv : QInv s) (ha : AheadInv h x s) (hstep : step s e = some s') :
    AheadInv h x s' := by
  obtain ⟨⟨hhb, hxb⟩, haq, had⟩ := ha
  cases e with
  | add p =>
      simp only [step] at hstep
      obtain rfl := Option.some.inj hstep
      cases p with
      | high =>
          rw [if_pos rfl]
          refine ⟨⟨?_, ?_⟩, ?_, ?_⟩
          · simp only [List.length_append, List.length_singleton]; omega
          · simp only [List.length_append, List.length_singleton]; omega
          · intro hx
            simp only [List.map_cons, List.mem_cons] at hx
            rcases hx with rfl | hx
            · exact absurd rfl (Nat.ne_of_lt hxb)
            · rcases haq hx with hs | hs
              · exact Or.inl (hs.cons _)
              · exact Or.inr hs
          · exact had
      | normal =>
          rw [if_neg (by decide)]
          refine ⟨⟨?_, ?_⟩, ?_, ?_⟩
          · simp only [List.length_append, List.length_singleton]; omega
          · simp only [List.length_append, List.length_singleton]; omega
          · intro hx
            simp only [List.map_append, List.map_cons, List.map_nil,
              List.mem_append, List.mem_singleton] at hx
            simp only [List.map_append, List.map_cons, List.map_nil]
            rcases hx with hx | rfl
            · rcases haq hx with hs | hs
              · exact Or.inl (hs.trans (List.sublist_append_left _ _))
              · exact Or.inr hs
            · exact absurd rfl (Nat.ne_of_lt hxb)
          · exact had
  | dispatch t =>
      simp only [step] at hstep
      cases hq : s.queue with
      | nil =>
          rw [hq] at hstep
          replace hstep : (none : Option QState) = some s' := hstep
          exact absurd hstep (by simp)
      | cons item rest =>
          rw [hq] at hstep
          replace hstep : (if s.activeRequests < s.maxConcurrent ∧
              s.lastRequestTime + s.minDelay ≤ t then
                some { s with
                  queue := rest
                  disp := ⟨item.id, item.pri, t, s.minDelay⟩ :: s.disp
                  inFlight := item.id :: s.inFlight
                  activeRequests := s.activeRequests + 1
                  lastRequestTime := t }
              else none) = some s' := hstep
          by_cases hg : s.activeRequests < s.maxConcurrent ∧
              s.lastRequestTime + s.minDelay ≤ t
          · rw [if_pos hg] at hstep
            obtain rfl := Option.some.inj hstep
            have hnodup := hinv.nodup
            rw [hq] at hnodup haq
            simp only [List.map_cons, List.cons_append] at hnodup haq
            have hqnodup : (item.id :: rest.map QItem.id).Nodup :=
              hnodup.sublist (List.cons_sublist_cons.mpr (List.sublist_append_left _ _))
            refine ⟨⟨hhb, hxb⟩, ?_, ?_⟩
            · -- x still queued
              intro hx
              simp only [List.map_cons] at hx ⊢
              have hxq : x ∈ item.id :: rest.map QItem.id :=
                List.mem_cons_of_mem _ hx
              rcases haq hxq with hs | hs
              · -- [h, x] <+ item.id :: rest-ids
                rcases List.sublist_cons_iff.mp hs with hs2 | ⟨r, hr, hrs⟩
                · exact Or.inl hs2
                · -- h = item.id: h has just been dispatched
                  obtain ⟨rfl, rfl⟩ : h = item.id ∧ r = [x] := by
                    injection hr with h1 h2
                    exact ⟨h1, h2.symm⟩
                  exact Or.inr (List.mem_cons_self _ _)
              · exact Or.inr (List.mem_cons_of_mem _ hs)
            · -- x dispatched
              intro hx
              simp only [List.map_cons] at hx ⊢
              rcases List.mem_cons.mp hx with rfl | hx2
              · -- x is the item just dispatched (x = item.id)
                have hxq : item.id ∈ item.id :: rest.map QItem.id :=
                  List.mem_cons_self _ _
                rcases haq hxq with hs | hs
                · -- [h, item.id] <+ item.id :: rest-ids is impossible
                  exfalso
                  rcases List.sublist_cons_iff.mp hs with hs2 | ⟨r, hr, hrs⟩
                  · -- item.id would recur in rest-ids, contradicting nodup
                    have hmem : item.id ∈ rest.map QItem.id :=
                      hs2.subset (by simp)
                    exact (List.nodup_cons.mp hqnodup).1 hmem
                  · injection hr with h1 h2
                    exact hxh h1.symm
                · -- h already dispatched
                  exact List.cons_sublist_cons.mpr (List.singleton_sublist.mpr hs)
              · -- x was dispatched earlier
                exact (had hx2).trans (List.sublist_cons_self _ _)
          · rw [if_neg hg] at hstep
            exact absurd hstep (by simp)
  | complete i =>
      simp only [step] at hstep
      by_cases hm : i ∈ s.inFlight
      · rw [if_pos hm] at hstep
        obtain rfl := Option.some.inj hstep
        exact ⟨⟨hhb, hxb⟩, haq, had⟩
      · rw [if_neg hm] at hstep
        exact absurd hstep (by simp)
  | clear =>
      simp only [step] at hstep
      obtain rfl := Option.some.inj hstep
      refine ⟨⟨hhb, hxb⟩, ?_, had⟩
      intro hx
      simp at hx
  | setRate r =>
      simp only [step] at hstep
      obtain rfl := Option.some.inj hstep
      exact ⟨⟨hhb, hxb⟩, haq, had⟩

theorem qDemo_run : run qDemoTrace = some qDemoFinal := by
  norm_num [run, qDemoTrace, runFrom, step, qInit, qDemoFinal, List.erase]

/-! ### C1 -/

/-- C1: in every queue execution, the dispatch timestamps (the instants at
which `lastRequestTime` is updated), taken in chronological order, are at
least `minDelay` apart — each consecutive pair satisfies
`earlier.time + later.delay ≤ later.time`, where `later.delay` is the
`minDelay` in force at the later dispatch — and
`minDelay = 1000 / requestsPerSecond` always holds. -/
theorem queue_pacing_gap (es : List QEvent) (s : QState) (h : run es = some s) :
    List.Chain' (fun a b => a.time + b.delay ≤ b.time) s.disp.reverse ∧
    s.minDelay = 1000 / s.requestsPerSecond := by
  have hinv := run_inv h
  refine ⟨?_, hinv.delay_eq⟩
  rw [List.chain'_reverse]
  exact hinv.chain

/-- C1 witness: in the demonstration trace the two dispatches at 100000 ms
and 100250 ms respect the 250 ms spacing. -/
theorem queue_pacing_gap_witness :
    List.Chain' (fun a b => a.time + b.delay ≤ b.time) qDemoFinal.disp.reverse :=
  (queue_pacing_gap qDemoTrace qDemoFinal qDemo_run).1

/-! ### C2 -/

/-- C2: at every reachable state of every queue execution,
`activeRequests ≤ maxConcurrent`; `activeRequests` counts exactly the
dispatched items whose work has not yet completed; and the completion of a
dispatched item's work decrements `activeRequests` by one. -/
theorem queue_concurrency_cap :
    (∀ es s, run es = some s → s.activeRequests ≤ s.maxConcurrent) ∧
    (∀ es s, run es = some s → s.activeRequests = s.inFlight.length) ∧
    (∀ es s i s', run es = some s → step s (QEvent.complete i) = some s' →
      s.activeRequests = s'.activeRequests + 1) := by
  refine ⟨fun es s h => (run_inv h).active_le,
    fun es s h => (run_inv h).active_eq, ?_⟩
  intro es s i s' h hstep
  have hinv := run_inv h
  simp only [step] at hstep
  by_cases hm : i ∈ s.inFlight
  · rw [if_pos hm] at hstep
    obtain rfl := Option.some.inj hstep
    have hlen : 0 < s.inFlight.length :=
      List.length_pos.mpr (List.ne_nil_of_mem hm)
    have hae := hinv.active_eq
    simp only
    omega
  · rw [if_neg hm] at hstep
    exact absurd hstep (by simp)

/-- C2 witness: the demonstration trace ends with
`activeRequests = 0 ≤ maxConcurrent = 1`. -/
theorem queue_concurrency_cap_witness :
    qDemoFinal.activeRequests ≤ qDemoFinal.maxConcurrent :=
  queue_concurrency_cap.1 qDemoTrace qDemoFinal qDemo_run

/-! ### C3 -/

/-- C3 counterexample: two `high` submissions (submission order 0 then 1,
`subs = [high, high]`) are dispatched in the order 1, 0 — `unshift` makes
the high tier last-in-first-out, so dispatch is not FIFO within the `high`
tier. -/
theorem queue_high_lifo_counterexample :
    (run [QEvent.add Priority.high, QEvent.add Priority.high,
        QEvent.dispatch 100000, QEvent.complete 1, QEvent.dispatch 100250]).map
      (fun s => ((s.disp.map DispatchRec.id).reverse, s.subs)) =
    some ([1, 0], [Priority.high, Priority.high]) := by
  norm_num [run, runFrom, step, qInit, List.erase]

/-- C3 amended: dispatch order is FIFO within the `normal` tier (the
dispatched `normal` items' submission indices are strictly increasing in
chronological dispatch order), and a `high` item jumps the whole queue: an
item `it` queued at the moment a `high` item is submitted is dispatched
strictly after that `high` item whenever `it` is dispatched at all.  Within
the `high` tier, however, dispatch is LIFO (front insertion), not FIFO. -/
theorem queue_priority_order :
    (∀ es s, run es = some s →
      List.Pairwise (· < ·)
        (((s.disp.reverse).filter (fun d => decide (d.pri = Priority.normal))).map
          DispatchRec.id)) ∧
    (∀ es1 es2 s1 s, run es1 = some s1 →
      runFrom s1 (QEvent.add Priority.high :: es2) = some s →
      ∀ it ∈ s1.queue, it.id ∈ s.disp.map DispatchRec.id →
        [s1.subs.length, it.id].Sublist ((s.disp.map DispatchRec.id).reverse)) := by
  constructor
  · intro es s h
    have hinv := run_inv h
    rw [List.filter_reverse, List.map_reverse, List.pairwise_reverse]
    exact hinv.normal_disp_sorted
  · intro es1 es2 s1 s h1 h2 it hit hdisp
    have hinv1 := run_inv h1
    have hxb : it.id < s1.subs.length :=
      hinv1.bounded _ (List.mem_append_left _ (List.mem_map_of_mem QItem.id hit))
    have hxh : it.id ≠ s1.subs.length := Nat.ne_of_lt hxb
    simp only [runFrom] at h2
    cases hs2 : step s1 (QEvent.add Priority.high) with
    | none => rw [hs2] at h2; simp at h2
    | some s2 =>
        rw [hs2] at h2
        have hinv2 : QInv s2 := step_inv hinv1 hs2
        have hbase : AheadInv s1.subs.length it.id s2 := by
          simp only [step] at hs2
          obtain rfl := Option.some.inj hs2
          simp only [if_true]
          refine ⟨⟨?_, ?_⟩, ?_, ?_⟩
          · simp only [List.length_append, List.length_singleton]; omega
          · simp only [List.length_append, List.length_singleton]; omega
          · intro hx
            refine Or.inl ?_
            simp only [List.map_cons]
            exact List.cons_sublist_cons.mpr (List.singleton_sublist.mpr
              (List.mem_map_of_mem QItem.id hit))
          · intro hx
            exact absurd hx (fun hx2 => (List.nodup_append.mp hinv1.nodup).2.2
              (List.mem_map_of_mem QItem.id hit) hx2)
        have hpres : ∀ s e s', (QInv s ∧ AheadInv s1.subs.length it.id s) →
            step s e = some s' → QInv s' ∧ AheadInv s1.subs.length it.id s' :=
          fun s e s' hp hs => ⟨step_inv hp.1 hs, step_ahead hxh hp.1 hp.2 hs⟩
        have hfin := runFrom_preserve _ hpres es2 s2 s ⟨hinv2, hbase⟩ h2
        have hsub := hfin.2.2.2 hdisp
        exact List.reverse_sublist.mpr hsub

/-- C3 witness: in the demonstration trace the dispatched `normal` items
(just submission 0) are in FIFO order. -/
theorem queue_priority_order_witness :
    List.Pairwise (· < ·)
      (((qDemoFinal.disp.reverse).filter
        (fun d => decide (d.pri = Priority.normal))).map DispatchRec.id) :=
  queue_priority_order.1 qDemoTrace qDemoFinal qDemo_run

/-! ### C9 -/

/-- C9 counterexample: after `add` of one item followed by `clearQueue`, the
item (submission 0, `subs.length = 1`) is neither queued, nor dispatched,
nor in flight — it was dropped without being consumed, so its result promise
can never settle. -/
theorem queue_clear_drop_counterexample :
    (run [QEvent.add Priority.normal, QEvent.clear]).map
        (fun s => (s.subs.length, s.queue.map QItem.id,
          s.disp.map DispatchRec.id, s.inFlight)) =
      some (1, [], [], []) := by decide

/-- C9 amended: no submitted item is ever dispatched twice (the dispatched
submission indices are duplicate-free, under any interleaving including
`clearQueue`); in any execution without `clearQueue`, the queued and
dispatched indices together are exactly the submitted ones, so every
submitted item is pending or dispatched exactly once; but `clearQueue`
discards the pending queue wholesale without dispatching the dropped items,
whose result promises therefore never settle. -/
theorem queue_exactly_once :
    (∀ es s, run es = some s → (s.disp.map DispatchRec.id).Nodup) ∧
    (∀ es s, run es = some s → (∀ e ∈ es, e ≠ QEvent.clear) →
      (s.queue.map QItem.id ++ s.disp.map DispatchRec.id).Perm
        (List.range s.subs.length)) ∧
    (∀ s s', step s QEvent.clear = some s' →
      s'.queue = [] ∧ s'.disp = s.disp ∧ s'.subs = s.subs ∧
        s'.inFlight = s.inFlight) := by
  refine ⟨?_, ?_, ?_⟩
  · intro es s h
    exact (run_inv h).nodup.sublist (List.sublist_append_right _ _)
  · intro es s h hnc
    exact runFrom_conserved es qInit s hnc qInit_conserved h
  · intro s s' hstep
    simp only [step] at hstep
    obtain rfl := Option.some.inj hstep
    exact ⟨rfl, rfl, rfl, rfl⟩

/-- C9 witness: in the clear-free demonstration trace both submitted items
are dispatched exactly once (queued plus dispatched ids are a permutation of
the submitted range). -/
theorem queue_exactly_once_witness :
    (qDemoFinal.queue.map QItem.id ++ qDemoFinal.disp.map DispatchRec.id).Perm
      (List.range qDemoFinal.subs.length) :=
  queue_exactly_once.2.1 qDemoTrace qDemoFinal qDemo_run (by decide)

end VolumeBot
